import Mathlib

/-!
Verification of the Lunar Lander terrain / collision / scoring core.

This file gives a shallow embedding of the algorithmic core of the game
(`GameInitialization.c`, `GameFunctions.c`) and proves or refutes the
specification claims about it.

Modelling conventions:
* C `int` values are `ℤ`; `Uint16` fields hold their numeric value as `ℤ`
  (assignments that can wrap are written with `% 65536`, `Int.emod`, which is
  exactly the C unsigned-conversion semantics).
* C `float`/`double` arithmetic on slopes, heights and velocities is modelled
  exactly over `ℚ`.
* The stack arrays `slopeMap` and `fHeightMap` are modelled as total maps
  `ℤ → ℚ`; the C arrays are uninitialized stack memory, modelled here as the
  all-zero map (no claim depends on a cell that the C code reads before
  writing with a value other than this default).
* `exit(...)` on a load error is modelled with `Except`; the null-pointer
  dereference that `buildSlopeMap` performs when the vertex list ends inside
  a vertical run is modelled as `Option.none`.
-/

namespace LunarLander

/-- LEVEL_WIDTH from Project03_01.c. -/
def LEVEL_WIDTH : ℤ := 900

/-- FUEL_START from Project03_01.c. -/
def FUEL_START : ℤ := 1000

/-- TOP_SCORE_TIER from Project03_01.c. -/
def TOP_SCORE_TIER : ℤ := 5

/-- FLAT_LAND_BASE from Project03_01.c. -/
def FLAT_LAND_BASE : ℤ := 24

/-- FLAT_LAND_INCREMENT from Project03_01.c. -/
def FLAT_LAND_INCREMENT : ℤ := 8

/-- LANDING_THRESHOLD from GameFunctions.h. -/
def LANDING_THRESHOLD : ℤ := 1

/-- SCORE_FOR_LANDING from GameFunctions.h. -/
def SCORE_FOR_LANDING : ℤ := 100

/-- CRASH_FUEL_COST from GameFunctions.h. -/
def CRASH_FUEL_COST : ℤ := 200

/-- A vertex of the terrain outline (struct Vertex in GameObjects.h); the
linked list is modelled as a `List`. -/
structure Vtx where
  x : ℤ
  y : ℤ
  deriving DecidableEq, Repr

/-- A landing strip (struct Flat in GameObjects.h). `len` and `tier` are the
Uint16 fields `length` and `scoreModifier`. -/
structure FlatS where
  x : ℤ
  y : ℤ
  len : ℤ
  tier : ℤ
  deriving DecidableEq, Repr

/-- The load-time fatal errors of readVertexList (exit codes
EXIT_BADFILE_FAIL and EXIT_EMPTYFILE_FAIL). -/
inductive PErr where
  | badFile
  | emptyFile
  deriving DecidableEq, Repr

/-- The all-zero map used as the initial contents of the slope / fractional
height arrays. -/
def zrQ : ℤ → ℚ := fun _ => 0

/-- Pointwise array write `a[i] = v`. -/
def upd (f : ℤ → ℚ) (i : ℤ) (v : ℚ) : ℤ → ℚ :=
  fun t => if t = i then v else f t

/-- The C idiom `for (x = lo; x < hi; x++) a[x] = v;`. -/
def fillS (f : ℤ → ℚ) (lo hi : ℤ) (v : ℚ) : ℤ → ℚ :=
  fun t => if lo ≤ t ∧ t < hi then v else f t

/-- The inner scan of buildSlopeMap's undefined-slope branch: starting from
`cur` (already past the first run vertex), advance while the next vertex has
the same X, accumulating the largest Y seen (the C update
`if (current->next->Y > maxY) maxY = current->next->Y`).  Returns the final
maximum, the last vertex of the run, the first vertex with a different X and
the remainder of the list.  The C loop dereferences `current->next` in its
condition, so a list that ends inside the run is undefined behaviour,
modelled as `none`. -/
def runScan : ℤ → Vtx → List Vtx → Option (ℤ × Vtx × Vtx × List Vtx)
  | _, _, [] => none
  | m, cur, nxt :: rest =>
    if cur.x = nxt.x then runScan (max m nxt.y) nxt rest
    else some (m, cur, nxt, rest)

/-- buildSlopeMap from GameInitialization.c, as a recursion over the vertex
list.  State is the pair (slopeMap, fHeightMap).  The outer C loop runs while
`current->next != NULL`; each iteration either handles a vertical run (the
`current->X == current->next->X` branch) or fills the slope of one ordinary
segment.  `fuel` is a structural-recursion bound on the number of outer
iterations; every iteration consumes at least one list cell
(`runScan_len`), so any `fuel ≥ vs.length` — `buildHeightMap` passes
`vs.length` — makes the fuel-exhaustion case unreachable. -/
def bsmAux (W : ℤ) : ℕ → List Vtx → (ℤ → ℚ) → (ℤ → ℚ) → Option ((ℤ → ℚ) × (ℤ → ℚ))
  | _, [], s, f => some (s, f)
  | _, [_], s, f => some (s, f)
  | 0, _ :: _ :: _, _, _ => none
  | fuel + 1, v1 :: v2 :: rest, s, f =>
    if v1.x = v2.x then
      match runScan (max v1.y v2.y) v2 rest with
      | none => none
      | some (m, last, nxt, rest2) =>
        bsmAux W fuel (nxt :: rest2)
          (fillS (upd s last.x 0) (last.x + 1) nxt.x
            (((nxt.y - last.y : ℤ) : ℚ) / ((nxt.x - last.x : ℤ) : ℚ)))
          (if last.x < W - 1
            then upd (upd f last.x (m : ℚ)) (last.x + 1) (-1)
            else upd f last.x (m : ℚ))
    else
      bsmAux W fuel (v2 :: rest)
        (fillS s v1.x v2.x (((v2.y - v1.y : ℤ) : ℚ) / ((v2.x - v1.x : ℤ) : ℚ))) f

/-- The loop of buildFHeightMap from GameInitialization.c.  `fuel` bounds the
number of iterations (the C loop performs at most `W - 1`); the loop index
`x` advances by 1, or by 2 when the undefined-slope sentinel
(`slopeMap[x] == 0 && x < levelWidth - 1 && fHeightMap[x+1] == -1.0`) fires. -/
def fhLoop (s : ℤ → ℚ) (W : ℤ) : ℕ → ℤ → (ℤ → ℚ) → (ℤ → ℚ)
  | 0, _, f => f
  | fuel + 1, x, f =>
    if x < W then
      if s x = 0 ∧ x < W - 1 ∧ f (x + 1) = -1 then
        fhLoop s W fuel (x + 2) (upd f (x + 1) (f x + s (x + 1)))
      else
        fhLoop s W fuel (x + 1) (upd f x (f (x - 1) + s (x - 1)))
    else f

/-- buildHeightMap from GameInitialization.c (with the vertex list already
read): run buildSlopeMap, then buildFHeightMap (which exits with
EXIT_MAP_FAIL when the first vertex has nonzero X, modelled as `none`),
then round every column up with `ceil`.  The final C cast to Uint16 is the
identity on the in-range values all claims are about. -/
def buildHeightMap (W : ℤ) (vs : List Vtx) : Option (ℤ → ℤ) :=
  match vs with
  | [] => none
  | v0 :: _ =>
    match bsmAux W vs.length vs zrQ zrQ with
    | none => none
    | some (S, F) =>
      if v0.x = 0 then
        some (fun t => Int.ceil (fhLoop S W W.toNat 1 (upd F 0 (v0.y : ℚ)) t))
      else none

/-- The read loop of readVertexList from GameInitialization.c.  One input pair
per `fscanf` call; `prevX` starts at `-1` and — exactly as in the C source —
is assigned only when handling the first vertex, never afterwards.  When the
first vertex has nonzero X a leading (0,0) vertex is synthesized. -/
def rvlStep (W : ℤ) : ℤ → List Vtx → List (ℤ × ℤ) → Except PErr (List Vtx)
  | _, acc, [] => Except.ok acc
  | prevX, acc, (X, Y) :: rest =>
    if X < 0 ∨ Y < 0 ∨ W ≤ X then Except.error PErr.badFile
    else if X < prevX then Except.error PErr.badFile
    else if prevX = -1 then
      if X ≠ 0 then rvlStep W X [⟨0, 0⟩, ⟨X, Y⟩] rest
      else rvlStep W X [⟨X, Y⟩] rest
    else rvlStep W prevX (acc ++ [⟨X, Y⟩]) rest

/-- The trailing normalization of readVertexList: if the last vertex is not
`(W-1, firstY)` append it. -/
def normalizeEnd (W : ℤ) (first : Vtx) (vs : List Vtx) : List Vtx :=
  match vs.getLast? with
  | none => vs
  | some last =>
    if last.x ≠ W - 1 ∨ last.y ≠ first.y then vs ++ [⟨W - 1, first.y⟩] else vs

/-- readVertexList from GameInitialization.c, on the list of successfully
scanned `(x, y)` pairs.  An empty read is EXIT_EMPTYFILE_FAIL; a bad vertex
is EXIT_BADFILE_FAIL. -/
def readVertexList (W : ℤ) (input : List (ℤ × ℤ)) : Except PErr (List Vtx) :=
  match rvlStep W (-1) [] input with
  | Except.error e => Except.error e
  | Except.ok [] => Except.error PErr.emptyFile
  | Except.ok (first :: rest) => Except.ok (normalizeEnd W first (first :: rest))

/-- The inner scan of findLandingStrips: advance `end` while the next vertex
exists and has the same Y. -/
def flatScan : Vtx → List Vtx → Vtx × List Vtx
  | cur, [] => (cur, [])
  | cur, nxt :: rest =>
    if nxt.y = cur.y then flatScan nxt rest else (cur, nxt :: rest)

/-- The score-tier computation of findLandingStrips.  The raw value
`TOP_SCORE_TIER - (len - FLAT_LAND_BASE) / FLAT_LAND_INCREMENT` (or
`TOP_SCORE_TIER + 1` for short strips) is stored into the Uint16 field
`scoreModifier` — the `% 65536` below is that unsigned conversion —
and the two clamping `if`s then run on the stored value. -/
def scoreModifier (len : ℤ) : ℤ :=
  let raw : ℤ :=
    if len < FLAT_LAND_BASE then TOP_SCORE_TIER + 1
    else TOP_SCORE_TIER - (len - FLAT_LAND_BASE) / FLAT_LAND_INCREMENT
  let stored : ℤ := raw % 65536
  let clamped : ℤ := if stored < 1 then 1 else stored
  if TOP_SCORE_TIER < clamped then 0 else clamped

/-- The loop of findLandingStrips, as a recursion over the vertex list: each
maximal block of adjacent equal-Y vertices becomes one Flat with
`length = end.x - start.x` (a Uint16 store) and the tier from
`scoreModifier`.  As in `bsmAux`, `fuel` bounds the outer iterations and any
`fuel ≥ vs.length` makes the cutoff unreachable (`flatScan_len`). -/
def flsAux : ℕ → List Vtx → List FlatS
  | _, [] => []
  | _, [_] => []
  | 0, _ :: _ :: _ => []
  | fuel + 1, v1 :: v2 :: rest =>
    if v1.y = v2.y then
      match flatScan v2 rest with
      | (endV, rest2) =>
        ⟨v1.x, v1.y, (endV.x - v1.x) % 65536,
          scoreModifier ((endV.x - v1.x) % 65536)⟩ ::
          flsAux fuel (endV :: rest2)
    else flsAux fuel (v2 :: rest)

/-- findLandingStrips from GameInitialization.c. -/
def findLandingStrips (vs : List Vtx) : List FlatS := flsAux vs.length vs

/-- The squared magnitude of the lander's velocity.  getVelocity in
GameFunctions.c returns `sqrt(vert^2 + hor^2)`; the square is the value the
embedding works with, since all comparisons against it are monotone in the
square. -/
def getVelocitySq (vv hv : ℚ) : ℚ := vv * vv + hv * hv

/-- isLandingSpeed from GameFunctions.c:
`(int)(getVelocity(state)) <= LANDING_THRESHOLD`.  For a nonnegative real,
truncating `sqrt s` to an int and comparing with 1 is equivalent to
`sqrt s < 2`, i.e. `s < 4`; the lemma `isLandingSpeed_eq_floor_sqrt` below
certifies this reading against the literal C expression. -/
def isLandingSpeed (vv hv : ℚ) : Prop :=
  getVelocitySq vv hv < (LANDING_THRESHOLD + 1) * (LANDING_THRESHOLD + 1)

instance (vv hv : ℚ) : Decidable (isLandingSpeed vv hv) := by
  unfold isLandingSpeed; infer_instance

/-- isFlatLand from GameFunctions.c: the three sampled heights agree. -/
def isFlatLand (hm : ℤ → ℤ) (x1 x2 x3 : ℤ) : Prop :=
  hm x1 = hm x2 ∧ hm x1 = hm x3

instance (hm : ℤ → ℤ) (x1 x2 x3 : ℤ) : Decidable (isFlatLand hm x1 x2 x3) := by
  unfold isFlatLand; infer_instance

/-- collisionDetected from GameFunctions.c.  `x`, `y`, `len` are the lander's
Uint16 position and length (hence nonnegative in every real call, which makes
the C `%`, which truncates toward zero, agree with `Int.emod`); `lt` is the
value of the caller's `landingType` buffer, returned unchanged when the
function writes nothing.  The result is (return value, buffer contents). -/
def collisionDetected (W : ℤ) (hm : ℤ → ℤ) (x y len : ℤ) (vv hv : ℚ)
    (lt : ℤ) : Bool × ℤ :=
  let leftX := x
  let middleX := (leftX + len / 2) % W
  let rightX := (leftX + len) % W
  if (0 ≤ leftX ∧ leftX < W) ∧ y ≤ hm leftX then
    (true, if isLandingSpeed vv hv ∧ isFlatLand hm leftX middleX rightX then 1 else 2)
  else if (0 ≤ middleX ∧ middleX < W) ∧ y ≤ hm middleX then
    (true, if isLandingSpeed vv hv ∧ isFlatLand hm leftX middleX rightX then 1 else 2)
  else if (0 ≤ rightX ∧ rightX < W) ∧ y ≤ hm rightX then
    (true, if isLandingSpeed vv hv ∧ isFlatLand hm leftX middleX rightX then 1 else 2)
  else (false, lt)

/-- The sampling policy as claim C4 words it: the three bottom-edge samples,
each reduced modulo the level width, consulted in order with the first
sample at-or-below terrain registering the collision. -/
def collisionSpecC4 (W : ℤ) (hm : ℤ → ℤ) (x y len : ℤ) (vv hv : ℚ)
    (lt : ℤ) : Bool × ℤ :=
  let leftX := x % W
  let middleX := (x + len / 2) % W
  let rightX := (x + len) % W
  match [leftX, middleX, rightX].find? (fun sm => decide (y ≤ hm sm)) with
  | some _ =>
    (true, if isLandingSpeed vv hv ∧ isFlatLand hm leftX middleX rightX then 1 else 2)
  | none => (false, lt)

/-- The strip-selection walk of applyCollision's landing branch:
`while (currentFlat != NULL && currentFlat->X + currentFlat->length <
state->lander->X) currentFlat = currentFlat->next;`. -/
def findLandedFlat : List FlatS → ℤ → Option FlatS
  | [], _ => none
  | f :: rest, lx => if f.x + f.len < lx then findLandedFlat rest lx else some f

/-- The score / fuel components of GameState (Uint16 fields). -/
structure GState where
  score : ℤ
  fuel : ℤ
  deriving DecidableEq, Repr

/-- applyCollision from GameFunctions.c, restricted to its game-state
mutations (the message display is presentation).  Landing type 1 adds
`SCORE_FOR_LANDING * modifier` to the Uint16 score; type 2 subtracts
CRASH_FUEL_COST from the Uint16 fuel; both stores wrap modulo 2^16. -/
def applyCollision (st : GState) (flats : List FlatS) (landerX : ℤ)
    (landingType : ℤ) : GState :=
  if landingType = 1 then
    let modifier := ((findLandedFlat flats landerX).map FlatS.tier).getD 0
    ⟨(st.score + SCORE_FOR_LANDING * modifier) % 65536, st.fuel⟩
  else if landingType = 2 then
    ⟨st.score, (st.fuel - CRASH_FUEL_COST) % 65536⟩
  else st

/-- gameOver from GameFunctions.c: `state.fuel <= 0 || state.fuel > FUEL_START`
on the Uint16 fuel value. -/
def gameOver (fuel : ℤ) : Prop := fuel ≤ 0 ∨ FUEL_START < fuel

instance (fuel : ℤ) : Decidable (gameOver fuel) := by
  unfold gameOver; infer_instance

/-- Slope map the slope pass produces on the vertex list
`[(0,0), (10,5), (10,0), (11,0)]` at level width 12: slope 1/2 on `[0,10)`,
slope 0 stored at the run column 10, the empty fill `[11,11)` for the
outgoing slope of the degenerate run. -/
def c6S : ℤ → ℚ :=
  fillS (upd (fillS zrQ 0 10 (((5 - 0 : ℤ) : ℚ) / ((10 - 0 : ℤ) : ℚ))) 10 0)
    11 11 (((0 - 0 : ℤ) : ℚ) / ((11 - 10 : ℤ) : ℚ))

/-- Height-map seed the slope pass produces on the same list: the run maximum
5 recorded at column 10, the `-1` sentinel at column 11, and the first
vertex's y at column 0. -/
def c6F : ℤ → ℚ :=
  upd (upd (upd zrQ 10 ((5 : ℤ) : ℚ)) 11 (-1)) 0 ((0 : ℤ) : ℚ)

/-- Slope map the slope pass produces on the vertex list
`[(0,0), (5,1), (5,2), (6,1), (6,3), (10,0), (11,0)]` at level width 12:
slope 1/5 on `[0,5)`, the two degenerate runs at x = 5 and x = 6 each store
slope 0 at their column, slope -3/4 on `[7,10)` and slope 0 on `[10,11)`. -/
def c5S : ℤ → ℚ :=
  fillS (fillS (upd (fillS (upd (fillS zrQ 0 5 (((1 - 0 : ℤ) : ℚ) / ((5 - 0 : ℤ) : ℚ)))
      5 0) 6 6 (((1 - 2 : ℤ) : ℚ) / ((6 - 5 : ℤ) : ℚ))) 6 0)
    7 10 (((0 - 3 : ℤ) : ℚ) / ((10 - 6 : ℤ) : ℚ)))
    10 11 (((0 - 0 : ℤ) : ℚ) / ((11 - 10 : ℤ) : ℚ))

/-- Height-map seed the slope pass produces on the same list: run maximum 2
at column 5 with its sentinel at column 6, then run maximum 3 at column 6 —
clobbering the first run's sentinel — with its own sentinel at column 7,
and the first vertex's y at column 0. -/
def c5F : ℤ → ℚ :=
  upd (upd (upd (upd (upd zrQ 5 ((2 : ℤ) : ℚ)) 6 (-1)) 6 ((3 : ℤ) : ℚ)) 7 (-1)) 0
    ((0 : ℤ) : ℚ)

/-- Bridge between the `ℚ` embedding of isLandingSpeed and the literal C
expression `(int)(sqrt(vv*vv + hv*hv)) <= LANDING_THRESHOLD` read over the
reals: the two are equivalent, because truncation of the nonnegative square
root is its floor and the square root is monotone. -/
theorem isLandingSpeed_eq_floor_sqrt (vv hv : ℚ) :
    isLandingSpeed vv hv ↔
      Int.floor (Real.sqrt ((getVelocitySq vv hv : ℚ) : ℝ)) ≤ LANDING_THRESHOLD := by
  have hq : (0 : ℚ) ≤ getVelocitySq vv hv := by
    unfold getVelocitySq
    have h1 := mul_self_nonneg vv
    have h2 := mul_self_nonneg hv
    linarith
  unfold isLandingSpeed LANDING_THRESHOLD
  constructor
  · intro h
    have h4 : ((getVelocitySq vv hv : ℚ) : ℝ) < (2 : ℝ) ^ 2 := by
      norm_num
      exact_mod_cast h
    have hs : Real.sqrt ((getVelocitySq vv hv : ℚ) : ℝ) < 2 :=
      (Real.sqrt_lt' (by norm_num)).mpr h4
    have hlt : Int.floor (Real.sqrt ((getVelocitySq vv hv : ℚ) : ℝ)) < (2 : ℤ) :=
      Int.floor_lt.mpr (by exact_mod_cast hs)
    omega
  · intro h
    have h2 : Int.floor (Real.sqrt ((getVelocitySq vv hv : ℚ) : ℝ)) < (2 : ℤ) := by
      omega
    have hs : Real.sqrt ((getVelocitySq vv hv : ℚ) : ℝ) < 2 := by
      have h3 := Int.floor_lt.mp h2
      exact_mod_cast h3
    have h4 : ((getVelocitySq vv hv : ℚ) : ℝ) < (2 : ℝ) ^ 2 :=
      (Real.sqrt_lt' (by norm_num)).mp hs
    norm_num at h4
    exact_mod_cast h4

theorem runScan_len : ∀ (m : ℤ) (cur : Vtx) (l : List Vtx) m2 la nx r2,
    runScan m cur l = some (m2, la, nx, r2) → (nx :: r2).length ≤ l.length := by
  intro m cur l
  induction l generalizing m cur with
  | nil => intro m2 la nx r2 h; simp [runScan] at h
  | cons a l ih =>
    intro m2 la nx r2 h
    simp only [runScan] at h
    by_cases hx : cur.x = a.x
    · rw [if_pos hx] at h
      have := ih (max m a.y) a m2 la nx r2 h
      simp only [List.length_cons] at this ⊢
      omega
    · rw [if_neg hx] at h
      simp only [Option.some.injEq, Prod.mk.injEq] at h
      obtain ⟨-, -, rfl, rfl⟩ := h
      simp

theorem flatScan_len : ∀ (cur : Vtx) (l : List Vtx) e r2,
    flatScan cur l = (e, r2) → r2.length ≤ l.length := by
  intro cur l
  induction l generalizing cur with
  | nil => intro e r2 h; simp [flatScan] at h; simp [h.2]
  | cons a l ih =>
    intro e r2 h
    simp only [flatScan] at h
    by_cases hy : a.y = cur.y
    · rw [if_pos hy] at h
      have := ih a e r2 h
      simp only [List.length_cons]
      omega
    · rw [if_neg hy] at h
      injection h with h1 h2
      simp [h2]

theorem findLandedFlat_eq_find : ∀ (flats : List FlatS) (lx : ℤ),
    findLandedFlat flats lx = flats.find? (fun f => decide (lx ≤ f.x + f.len)) := by
  intro flats lx
  induction flats with
  | nil => rfl
  | cons f rest ih =>
    simp only [findLandedFlat, List.find?]
    by_cases h : f.x + f.len < lx
    · rw [if_pos h]
      have hd : (decide (lx ≤ f.x + f.len)) = false := by
        simp only [decide_eq_false_iff_not, not_le]
        exact h
      rw [hd]
      exact ih
    · rw [if_neg h]
      have hd : (decide (lx ≤ f.x + f.len)) = true := by
        simp only [decide_eq_true_eq]
        omega
      rw [hd]

/-- Claim C1: the score tier of a landing strip of length `len` is 0 for
`len < 24` and otherwise `max 1 (5 - (len - 24) / 8)`, so every strip of
length at least 56 has tier exactly 1.  The code disagrees at length 72:
`5 - (72 - 24) / 8 = -1` is stored into the Uint16 `scoreModifier` field,
wraps to 65535, and the too-short check `scoreModifier > TOP_SCORE_TIER`
then zeroes it, so the tier is 0 where the claim requires 1.  The
evaluations at 24, 32, 56 and 64 show the claimed formula does hold below
length 72. -/
theorem C1_tier_eval :
    scoreModifier 72 = 0 ∧ scoreModifier 24 = 5 ∧ scoreModifier 32 = 4 ∧
    scoreModifier 56 = 1 ∧ scoreModifier 64 = 1 ∧ scoreModifier 10 = 0 := by
  decide

/-- Claim C2: a vertex file containing an x strictly smaller than the
immediately preceding vertex's x is claimed to be rejected.  The code keeps
`prevX` frozen at the first vertex's x, so the file
`"0 0\n10 5\n5 5\n"` — in which 5 < 10 — is accepted, normalized and even
yields a terrain. -/
theorem C2_accepts_nonmonotonic :
    readVertexList LEVEL_WIDTH [(0, 0), (10, 5), (5, 5)] =
      Except.ok [⟨0, 0⟩, ⟨10, 5⟩, ⟨5, 5⟩, ⟨899, 0⟩] ∧
    (buildHeightMap LEVEL_WIDTH [⟨0, 0⟩, ⟨10, 5⟩, ⟨5, 5⟩, ⟨899, 0⟩]).isSome = true := by
  constructor
  · rfl
  · rfl

/-- Claim C3 counterexample: a lander over perfectly flat terrain moving at
horizontal speed 3/2 — Euclidean norm strictly greater than 1, squared norm
9/4 — registers a collision with outcome Landed (buffer value 1), because
isLandingSpeed truncates `sqrt(9/4) = 1.5` to the int 1 before comparing
with LANDING_THRESHOLD.  The claim requires every collision at speed
magnitude above 1 to be Crashed. -/
theorem C3_counterexample :
    collisionDetected 10 (fun _ => 5) 0 5 4 0 (3 / 2) 0 = (true, 1) ∧
    ¬ getVelocitySq 0 (3 / 2) ≤ 1 := by
  constructor
  · simp only [collisionDetected, isLandingSpeed, isFlatLand, getVelocitySq,
      LANDING_THRESHOLD]
    norm_num
  · simp only [getVelocitySq]
    norm_num

/-- Claim C3 (amended): in every registered collision the outcome is Landed
iff the lander passes isLandingSpeed — squared speed below 4, i.e. the
integer truncation of the speed is at most LANDING_THRESHOLD — and the three
sampled heights are equal; otherwise it is Crashed. -/
theorem C3_amended : ∀ (W : ℤ) (hm : ℤ → ℤ) (x y len : ℤ) (vv hv : ℚ) (lt : ℤ),
    (collisionDetected W hm x y len vv hv lt).1 = true →
    (((collisionDetected W hm x y len vv hv lt).2 = 1 ↔
        (isLandingSpeed vv hv ∧
          isFlatLand hm x ((x + len / 2) % W) ((x + len) % W))) ∧
      ((collisionDetected W hm x y len vv hv lt).2 = 2 ↔
        ¬(isLandingSpeed vv hv ∧
          isFlatLand hm x ((x + len / 2) % W) ((x + len) % W)))) := by
  intro W hm x y len vv hv lt
  simp only [collisionDetected]
  split_ifs with h1 h2 h3 <;> simp_all

/-- Witness for C3_amended: a slow lander over flat ground lands. -/
theorem C3_amended_witness :
    (collisionDetected 10 (fun _ => 5) 0 3 4 0 0 0).2 = 1 := by
  have hcol : (collisionDetected 10 (fun _ => 5) 0 3 4 0 0 0).1 = true := by
    simp only [collisionDetected]
    norm_num
  have h := C3_amended 10 (fun _ => 5) 0 3 4 0 0 0 hcol
  refine h.1.mpr ⟨?_, ?_⟩
  · simp only [isLandingSpeed, getVelocitySq, LANDING_THRESHOLD]
    norm_num
  · simp [isFlatLand]

/-- Claim C4: collision detection samples exactly the three bottom-edge
positions left = x, middle = x + len/2, right = x + len, each reduced modulo
the level width, consults them in that order, and registers the collision at
the first sample whose height reaches the lander; with the lander's x inside
the level (the Uint16 position invariant maintained by applyTick) the code
is extensionally equal to that first-match policy, including the wrapped
right sample `(x + len) mod W`. -/
theorem C4_sampling : ∀ (W : ℤ) (hm : ℤ → ℤ) (x y len : ℤ) (vv hv : ℚ) (lt : ℤ),
    0 < W → 0 ≤ x → x < W →
    collisionDetected W hm x y len vv hv lt = collisionSpecC4 W hm x y len vv hv lt := by
  intro W hm x y len vv hv lt hW hx hxW
  have hxm : x % W = x := Int.emod_eq_of_lt hx hxW
  have hm0 : 0 ≤ (x + len / 2) % W := Int.emod_nonneg _ (by omega)
  have hm1 : (x + len / 2) % W < W := Int.emod_lt_of_pos _ hW
  have hr0 : 0 ≤ (x + len) % W := Int.emod_nonneg _ (by omega)
  have hr1 : (x + len) % W < W := Int.emod_lt_of_pos _ hW
  simp only [collisionDetected, collisionSpecC4]
  rw [hxm]
  by_cases h1 : y ≤ hm x
  · simp [List.find?, h1, hx, hxW]
  · by_cases h2 : y ≤ hm ((x + len / 2) % W)
    · simp [List.find?, h1, h2, hx, hxW, hm0, hm1]
    · by_cases h3 : y ≤ hm ((x + len) % W)
      · simp [List.find?, h1, h2, h3, hx, hxW, hm0, hm1, hr0, hr1]
      · simp [List.find?, h1, h2, h3, hx, hxW, hm0, hm1, hr0, hr1]

/-- Witness for C4_sampling: a lander at x = 8 of length 4 in a level of
width 10; its right sample wraps to column 2, where the terrain stands. -/
theorem C4_sampling_witness :
    collisionDetected 10 (fun t => if t = 2 then 9 else 0) 8 3 4 0 0 0 =
      collisionSpecC4 10 (fun t => if t = 2 then 9 else 0) 8 3 4 0 0 0 :=
  C4_sampling 10 (fun t => if t = 2 then 9 else 0) 8 3 4 0 0 0
    (by decide) (by decide) (by decide)

/-- Claim C7: resolving a Landed collision selects the first strip in list
order (the list is built in increasing x) whose `x + length` reaches the
lander's x, adds `SCORE_FOR_LANDING * tier` to the Uint16 score, and leaves
the score unchanged when no strip matches or the matching strip has tier 0;
fuel is untouched. -/
theorem C7_landing_score : ∀ (flats : List FlatS) (lx : ℤ) (st : GState),
    0 ≤ st.score → st.score < 65536 →
    (applyCollision st flats lx 1).fuel = st.fuel ∧
    (applyCollision st flats lx 1).score =
      (st.score + SCORE_FOR_LANDING *
        (((flats.find? (fun f => decide (lx ≤ f.x + f.len))).map FlatS.tier).getD 0)) % 65536 ∧
    (∀ f0, flats.find? (fun f => decide (lx ≤ f.x + f.len)) = some f0 → f0.tier = 0 →
      (applyCollision st flats lx 1).score = st.score) ∧
    (flats.find? (fun f => decide (lx ≤ f.x + f.len)) = none →
      (applyCollision st flats lx 1).score = st.score) := by
  intro flats lx st hs0 hs1
  have happ : applyCollision st flats lx 1 =
      ⟨(st.score + SCORE_FOR_LANDING *
        (((flats.find? (fun f => decide (lx ≤ f.x + f.len))).map FlatS.tier).getD 0)) % 65536,
        st.fuel⟩ := by
    unfold applyCollision
    rw [if_pos rfl, findLandedFlat_eq_find]
  rw [happ]
  refine ⟨rfl, rfl, ?_, ?_⟩
  · intro f0 hf0 ht
    rw [hf0]
    simp only [Option.map_some', Option.getD_some, ht, mul_zero, add_zero]
    exact Int.emod_eq_of_lt hs0 hs1
  · intro hnone
    rw [hnone]
    simp only [Option.map_none', Option.getD_none, mul_zero, add_zero]
    exact Int.emod_eq_of_lt hs0 hs1

/-- Witness for C7_landing_score: two strips, the lander lands on the second
(tier 3), earning 300. -/
theorem C7_landing_score_witness :
    (applyCollision ⟨50, 700⟩ [⟨0, 4, 30, 0⟩, ⟨60, 4, 40, 3⟩] 80 1).fuel = 700 ∧
    (applyCollision ⟨50, 700⟩ [⟨0, 4, 30, 0⟩, ⟨60, 4, 40, 3⟩] 80 1).score = 350 := by
  have h := C7_landing_score [⟨0, 4, 30, 0⟩, ⟨60, 4, 40, 3⟩] 80 ⟨50, 700⟩
    (by decide) (by decide)
  refine ⟨h.1, ?_⟩
  rw [h.2.1]
  decide

/-- Claim C8: resolving a Crashed collision subtracts CRASH_FUEL_COST = 200
from the Uint16 fuel with no floor clamp (the store wraps modulo 2^16, so
fuel below 200 wraps to fuel + 65336), leaves the score unchanged, and
gameOver afterwards holds exactly when the fuel is 0 or exceeds
FUEL_START = 1000. -/
theorem C8_crash_fuel : ∀ (st : GState) (flats : List FlatS) (lx : ℤ),
    0 ≤ st.fuel → st.fuel < 65536 →
    (applyCollision st flats lx 2).score = st.score ∧
    (applyCollision st flats lx 2).fuel = (st.fuel - CRASH_FUEL_COST) % 65536 ∧
    (st.fuel < CRASH_FUEL_COST → (applyCollision st flats lx 2).fuel = st.fuel + 65336) ∧
    (gameOver (applyCollision st flats lx 2).fuel ↔
      (applyCollision st flats lx 2).fuel = 0 ∨
        FUEL_START < (applyCollision st flats lx 2).fuel) := by
  intro st flats lx h0 h1
  have hne : (2 : ℤ) ≠ 1 := by decide
  have happ : applyCollision st flats lx 2 =
      ⟨st.score, (st.fuel - CRASH_FUEL_COST) % 65536⟩ := by
    unfold applyCollision
    rw [if_neg hne, if_pos rfl]
  rw [happ]
  refine ⟨rfl, rfl, ?_, ?_⟩
  · intro hlow
    show (st.fuel - CRASH_FUEL_COST) % 65536 = st.fuel + 65336
    unfold CRASH_FUEL_COST at hlow ⊢
    omega
  · show gameOver ((st.fuel - CRASH_FUEL_COST) % 65536) ↔
      (st.fuel - CRASH_FUEL_COST) % 65536 = 0 ∨
        FUEL_START < (st.fuel - CRASH_FUEL_COST) % 65536
    unfold gameOver FUEL_START CRASH_FUEL_COST
    omega

/-- Witness for C8_crash_fuel: crashing with 150 fuel wraps to 65486, which
is game over. -/
theorem C8_crash_fuel_witness :
    (applyCollision ⟨40, 150⟩ [] 0 2).score = 40 ∧
    (applyCollision ⟨40, 150⟩ [] 0 2).fuel = 65486 ∧
    gameOver (applyCollision ⟨40, 150⟩ [] 0 2).fuel := by
  have h := C8_crash_fuel ⟨40, 150⟩ [] 0 (by decide) (by decide)
  refine ⟨h.1, ?_, ?_⟩
  · have h3 := h.2.2.1 (by decide)
    simpa using h3
  · have h3 := h.2.2.1 (by decide)
    rw [show (applyCollision ⟨40, 150⟩ [] 0 2).fuel = 65486 by simpa using h3]
    decide

/-- Claim C10: when collisionDetected returns false it leaves the caller's
landingType buffer untouched, and it writes the buffer (with 1 or 2) only
when it returns true. -/
theorem C10_buffer_frame : ∀ (W : ℤ) (hm : ℤ → ℤ) (x y len : ℤ) (vv hv : ℚ) (lt : ℤ),
    ((collisionDetected W hm x y len vv hv lt).1 = false →
      (collisionDetected W hm x y len vv hv lt).2 = lt) ∧
    ((collisionDetected W hm x y len vv hv lt).1 = true →
      (collisionDetected W hm x y len vv hv lt).2 = 1 ∨
        (collisionDetected W hm x y len vv hv lt).2 = 2) := by
  intro W hm x y len vv hv lt
  simp only [collisionDetected]
  split_ifs with h1 h2 h3 h4 <;> simp_all

/-- Witness for C10_buffer_frame: with the lander far above a zero-height
terrain no collision is registered and the buffer keeps its old value 7. -/
theorem C10_buffer_frame_witness :
    (collisionDetected 10 (fun _ => 0) 0 5 4 0 0 7).2 = 7 :=
  (C10_buffer_frame 10 (fun _ => 0) 0 5 4 0 0 7).1 (by decide)

theorem upd_self (f : ℤ → ℚ) (i : ℤ) (v : ℚ) : upd f i v i = v := by
  unfold upd
  rw [if_pos rfl]

theorem upd_ne (f : ℤ → ℚ) (i : ℤ) (v : ℚ) (t : ℤ) (h : t ≠ i) : upd f i v t = f t := by
  unfold upd
  rw [if_neg h]

theorem fillS_in (f : ℤ → ℚ) (lo hi : ℤ) (v : ℚ) (t : ℤ) (h1 : lo ≤ t) (h2 : t < hi) :
    fillS f lo hi v t = v := by
  unfold fillS
  rw [if_pos ⟨h1, h2⟩]

theorem fillS_out (f : ℤ → ℚ) (lo hi : ℤ) (v : ℚ) (t : ℤ) (h : ¬(lo ≤ t ∧ t < hi)) :
    fillS f lo hi v t = f t := by
  unfold fillS
  rw [if_neg h]

theorem upd_zrQ_zero (i : ℤ) : upd zrQ i 0 = zrQ := by
  funext t
  unfold upd zrQ
  split <;> rfl

theorem sumIco_single (g : ℤ → ℚ) (a : ℤ) : ∑ t in Finset.Ico a (a + 1), g t = g a := by
  have h : Finset.Ico a (a + 1) = {a} := by
    ext t
    simp [Finset.mem_Ico]
    omega
  rw [h, Finset.sum_singleton]

theorem sumIco_split (g : ℤ → ℚ) (a b c : ℤ) (h1 : a ≤ b) (h2 : b ≤ c) :
    ∑ t in Finset.Ico a c, g t =
      (∑ t in Finset.Ico a b, g t) + ∑ t in Finset.Ico b c, g t := by
  rw [← Finset.Ico_union_Ico_eq_Ico h1 h2,
    Finset.sum_union (Finset.Ico_disjoint_Ico_consecutive a b c)]

/-- Positions strictly left of the loop index are never written. -/
theorem fhLoop_frame (s : ℤ → ℚ) (W : ℤ) :
    ∀ (fuel : ℕ) (x : ℤ) (f : ℤ → ℚ) (q : ℤ), q < x → fhLoop s W fuel x f q = f q := by
  intro fuel
  induction fuel with
  | zero => intro x f q hq; rfl
  | succ fuel ih =>
    intro x f q hq
    simp only [fhLoop]
    split_ifs with h1 h2
    · rw [ih (x + 2) _ q (by omega), upd_ne _ _ _ q (by omega)]
    · rw [ih (x + 1) _ q (by omega), upd_ne _ _ _ q (by omega)]
    · rfl

/-- Positions at or beyond the level width are never written. -/
theorem fhLoop_high (s : ℤ → ℚ) (W : ℤ) :
    ∀ (fuel : ℕ) (x : ℤ) (f : ℤ → ℚ) (q : ℤ), W ≤ q → fhLoop s W fuel x f q = f q := by
  intro fuel
  induction fuel with
  | zero => intro x f q hq; rfl
  | succ fuel ih =>
    intro x f q hq
    simp only [fhLoop]
    split_ifs with h1 h2
    · rw [ih (x + 2) _ q hq, upd_ne _ _ _ q (by omega)]
    · rw [ih (x + 1) _ q hq, upd_ne _ _ _ q (by omega)]
    · rfl

/-- On an all-zero slope map and all-zero start the loop keeps everything 0. -/
theorem fhLoop_zero (W : ℤ) :
    ∀ (fuel : ℕ) (x : ℤ), fhLoop zrQ W fuel x zrQ = zrQ := by
  intro fuel
  induction fuel with
  | zero => intro x; rfl
  | succ fuel ih =>
    intro x
    simp only [fhLoop]
    split_ifs with h1 h2
    · exfalso
      have h3 : (0 : ℚ) = -1 := h2.2.2
      norm_num at h3
    · have hv : upd zrQ x (zrQ (x - 1) + zrQ (x - 1)) = zrQ := by
        funext t
        unfold upd zrQ
        split <;> norm_num
      rw [hv]
      exact ih (x + 1)
    · rfl

/-- Pure accumulation: as long as the undefined-slope sentinel never fires at
the iterations covering `[x, q]`, the final value at column `q` is the start
value at `x - 1` plus the sum of the slopes over `[x-1, q)`. -/
theorem fhLoop_accum (s : ℤ → ℚ) (W : ℤ) :
    ∀ (fuel : ℕ) (x : ℤ) (f : ℤ → ℚ) (q : ℤ),
      1 ≤ x → x ≤ q → q < W → (W - x).toNat ≤ fuel →
      (∀ p, x ≤ p → p ≤ q → ¬(s p = 0 ∧ p < W - 1 ∧ f (p + 1) = -1)) →
      fhLoop s W fuel x f q = f (x - 1) + ∑ t in Finset.Ico (x - 1) q, s t := by
  intro fuel
  induction fuel with
  | zero => intro x f q h1 h2 h3 h4 h5; omega
  | succ fuel ih =>
    intro x f q h1 h2 h3 h4 h5
    simp only [fhLoop]
    rw [if_pos (show x < W by omega), if_neg (h5 x (le_refl x) h2)]
    by_cases hq : q = x
    · subst hq
      rw [fhLoop_frame s W fuel (q + 1) _ q (by omega), upd_self]
      have hIco : Finset.Ico (q - 1) q = Finset.Ico (q - 1) ((q - 1) + 1) := by
        congr 1
        ring
      rw [hIco, sumIco_single]
    · have hfuel2 : (W - (x + 1)).toNat ≤ fuel := by omega
      have hrec := ih (x + 1) (upd f x (f (x - 1) + s (x - 1))) q (by omega) (by omega) h3
        hfuel2
        (by
          intro p hp1 hp2
          rw [upd_ne _ _ _ (p + 1) (by omega)]
          exact h5 p (by omega) hp2)
      rw [hrec]
      have hstep : x + 1 - 1 = x := by ring
      rw [hstep, upd_self]
      have hsplit : ∑ t in Finset.Ico (x - 1) q, s t =
          (∑ t in Finset.Ico (x - 1) x, s t) + ∑ t in Finset.Ico x q, s t :=
        sumIco_split s (x - 1) x q (by omega) (by omega)
      have hIco : Finset.Ico (x - 1) x = Finset.Ico (x - 1) ((x - 1) + 1) := by
        congr 1
        ring
      rw [hsplit, hIco, sumIco_single]
      ring

/-- The sentinel columns: if column `xr` carries a recorded run maximum `mY`
with the `-1` sentinel right after it, `slopeMap[xr] = 0` and `xr < W - 1`,
then the loop, arriving from any `x ≤ xr`, leaves `mY` at `xr` and writes
`mY + slopeMap[xr+1]` at `xr + 1`. -/
theorem fhLoop_sentinel (s : ℤ → ℚ) (W xr mY : ℤ) :
    ∀ (fuel : ℕ) (x : ℤ) (f : ℤ → ℚ),
      1 ≤ x → x ≤ xr → (W - x).toNat ≤ fuel →
      f xr = mY → f (xr + 1) = -1 → mY ≠ -1 → s xr = 0 → xr < W - 1 →
      fhLoop s W fuel x f xr = mY ∧
        fhLoop s W fuel x f (xr + 1) = mY + s (xr + 1) := by
  intro fuel
  induction fuel with
  | zero => intro x f h1 h2 h3 hfx hfx1 hm hs hxr; omega
  | succ fuel ih =>
    intro x f h1 h2 h3 hfx hfx1 hm hs hxr
    simp only [fhLoop]
    rw [if_pos (show x < W by omega)]
    by_cases hx : x = xr
    · subst hx
      rw [if_pos ⟨hs, by omega, hfx1⟩]
      constructor
      · rw [fhLoop_frame s W fuel (x + 2) _ x (by omega), upd_ne _ _ _ x (by omega), hfx]
      · rw [fhLoop_frame s W fuel (x + 2) _ (x + 1) (by omega), upd_self, hfx]
    · by_cases hsent : s x = 0 ∧ x < W - 1 ∧ f (x + 1) = -1
      · rw [if_pos hsent]
        have hne1 : x + 1 ≠ xr := by
          -- were the sentinel at x to write exactly xr, then f (x+1) = f xr = mY = -1
          intro he
          apply hm
          have hc : (mY : ℚ) = -1 := by
            rw [← hfx, ← he]
            exact hsent.2.2
          exact_mod_cast hc
        refine ih (x + 2) _ (by omega) (by omega) (by omega) ?_ ?_ hm hs hxr
        · rw [upd_ne _ _ _ xr (by omega)]
          exact hfx
        · rw [upd_ne _ _ _ (xr + 1) (by omega)]
          exact hfx1
      · rw [if_neg hsent]
        refine ih (x + 1) _ (by omega) (by omega) (by omega) ?_ ?_ hm hs hxr
        · rw [upd_ne _ _ _ xr (by omega)]
          exact hfx
        · rw [upd_ne _ _ _ (xr + 1) (by omega)]
          exact hfx1

/-- Claim C9: the 2-vertex file "0 0\n899 0\n" at levelWidth 900 parses to
exactly its two vertices (no normalization needed), builds the all-zero
height map, and yields exactly one landing strip starting at x = 0 of length
899 — whose score tier however is 0, not the claimed 1: `scoreModifier 899`
wraps the negative raw tier through the Uint16 field and the too-short check
zeroes it (see C1). -/
theorem C9_roundtrip :
    readVertexList 900 [(0, 0), (899, 0)] = Except.ok [⟨0, 0⟩, ⟨899, 0⟩] ∧
    buildHeightMap 900 [⟨0, 0⟩, ⟨899, 0⟩] = some (fun _ => 0) ∧
    findLandingStrips [⟨0, 0⟩, ⟨899, 0⟩] = [⟨0, 0, 899, 0⟩] := by
  refine ⟨rfl, ?_, rfl⟩
  have hstart : buildHeightMap 900 [⟨0, 0⟩, ⟨899, 0⟩] =
      some (fun t => Int.ceil
        (fhLoop (fillS zrQ 0 899 (((0 - 0 : ℤ) : ℚ) / ((899 - 0 : ℤ) : ℚ)))
          900 900 1 (upd zrQ 0 ((0 : ℤ) : ℚ)) t)) := rfl
  have hslope : fillS zrQ 0 899 (((0 - 0 : ℤ) : ℚ) / ((899 - 0 : ℤ) : ℚ)) = zrQ := by
    funext t
    unfold fillS zrQ
    split
    · norm_num
    · rfl
  rw [hstart, hslope, show ((0 : ℤ) : ℚ) = 0 from Int.cast_zero, upd_zrQ_zero,
    fhLoop_zero 900 900 1]
  have hz : (fun t => Int.ceil (zrQ t)) = fun _ : ℤ => (0 : ℤ) := by
    funext t
    show Int.ceil ((0 : ℚ)) = 0
    exact Int.ceil_zero
  rw [hz]

theorem bsmAux_single (W : ℤ) (fuel : ℕ) (v : Vtx) (s f : ℤ → ℚ) :
    bsmAux W fuel [v] s f = some (s, f) := by
  cases fuel <;> rfl

theorem bsmAux_ne (W : ℤ) (fuel : ℕ) (v1 v2 : Vtx) (rest : List Vtx) (s f : ℤ → ℚ)
    (h : v1.x ≠ v2.x) :
    bsmAux W (fuel + 1) (v1 :: v2 :: rest) s f =
      bsmAux W fuel (v2 :: rest)
        (fillS s v1.x v2.x (((v2.y - v1.y : ℤ) : ℚ) / ((v2.x - v1.x : ℤ) : ℚ))) f := by
  simp only [bsmAux]
  rw [if_neg h]

theorem bsmAux_run (W : ℤ) (fuel : ℕ) (v1 v2 : Vtx) (rest : List Vtx) (s f : ℤ → ℚ)
    (m : ℤ) (la nx : Vtx) (r2 : List Vtx) (hx : v1.x = v2.x)
    (hrs : runScan (max v1.y v2.y) v2 rest = some (m, la, nx, r2)) :
    bsmAux W (fuel + 1) (v1 :: v2 :: rest) s f =
      bsmAux W fuel (nx :: r2)
        (fillS (upd s la.x 0) (la.x + 1) nx.x
          (((nx.y - la.y : ℤ) : ℚ) / ((nx.x - la.x : ℤ) : ℚ)))
        (if la.x < W - 1 then upd (upd f la.x (m : ℚ)) (la.x + 1) (-1)
          else upd f la.x (m : ℚ)) := by
  simp only [bsmAux]
  rw [if_pos hx, hrs]

theorem bsmAux_run_none (W : ℤ) (fuel : ℕ) (v1 v2 : Vtx) (rest : List Vtx)
    (s f : ℤ → ℚ) (hx : v1.x = v2.x)
    (hrs : runScan (max v1.y v2.y) v2 rest = none) :
    bsmAux W (fuel + 1) (v1 :: v2 :: rest) s f = none := by
  simp only [bsmAux]
  rw [if_pos hx, hrs]

/-- When the scanned block is exactly `rs` (all sharing `cur`'s x) followed by
a vertex at a different x, runScan folds the maximum over the block, ends at
the block's last vertex and hands back the remainder. -/
theorem runScan_eq : ∀ (rs : List Vtx) (m : ℤ) (cur nxt : Vtx) (post : List Vtx),
    (∀ v ∈ rs, v.x = cur.x) → nxt.x ≠ cur.x →
    runScan m cur (rs ++ nxt :: post) =
      some (rs.foldl (fun a v => max a v.y) m, rs.getLastD cur, nxt, post) := by
  intro rs
  induction rs with
  | nil =>
    intro m cur nxt post hall hne
    simp only [List.nil_append, runScan, List.foldl_nil, List.getLastD_nil]
    rw [if_neg (fun h => hne h.symm)]
  | cons r rs ih =>
    intro m cur nxt post hall hne
    have hr : r.x = cur.x := hall r (by simp)
    simp only [List.cons_append, runScan, List.foldl_cons, List.getLastD_cons]
    rw [if_pos hr.symm]
    exact ih (max m r.y) r nxt post
      (fun v hv => by rw [hall v (List.mem_cons_of_mem _ hv), ← hr])
      (by rw [hr]; exact hne)

/-- runScan keeps the x of the run, hands back a vertex no further left, and
preserves the nondecreasing chain. -/
theorem runScan_chain : ∀ (l : List Vtx) (m : ℤ) (cur : Vtx) m2 la nx r2,
    List.Chain' (fun a b => a.x ≤ b.x) (cur :: l) →
    runScan m cur l = some (m2, la, nx, r2) →
    la.x = cur.x ∧ cur.x ≤ nx.x ∧ List.Chain' (fun a b => a.x ≤ b.x) (nx :: r2) := by
  intro l
  induction l with
  | nil => intro m cur m2 la nx r2 hch h; simp [runScan] at h
  | cons a l ih =>
    intro m cur m2 la nx r2 hch h
    simp only [runScan] at h
    have hch2 : List.Chain' (fun a b : Vtx => a.x ≤ b.x) (a :: l) := hch.tail
    by_cases hx : cur.x = a.x
    · rw [if_pos hx] at h
      obtain ⟨h1, h2, h3⟩ := ih (max m a.y) a m2 la nx r2 hch2 h
      exact ⟨by rw [h1, hx], by rw [hx]; exact h2, h3⟩
    · rw [if_neg hx] at h
      simp only [Option.some.injEq, Prod.mk.injEq] at h
      obtain ⟨-, h1, rfl, rfl⟩ := h
      refine ⟨by rw [← h1], ?_, hch2⟩
      exact (List.chain'_cons.mp hch).1

/-- Scanning from inside a prefix whose x values all lie strictly left of
`v.x` never consumes `v`: the handed-back list is a (shorter) tail of the
prefix followed by `v :: rest`. -/
theorem runScan_pre : ∀ (pre2 : List Vtx) (m : ℤ) (cur v : Vtx) (rest : List Vtx),
    (∀ w ∈ pre2, w.x < v.x) → cur.x < v.x →
    ∃ m2 la nx r2 pre3,
      runScan m cur (pre2 ++ v :: rest) = some (m2, la, nx, r2) ∧
      nx :: r2 = pre3 ++ v :: rest ∧
      (∀ w ∈ pre3, w.x < v.x) ∧ la.x = cur.x ∧ pre3.length ≤ pre2.length := by
  intro pre2
  induction pre2 with
  | nil =>
    intro m cur v rest hall hcur
    refine ⟨m, cur, v, rest, [], ?_, rfl, by simp, rfl, by simp⟩
    simp only [List.nil_append, runScan]
    rw [if_neg (by omega)]
  | cons w pre2 ih =>
    intro m cur v rest hall hcur
    have hw : w.x < v.x := hall w (by simp)
    by_cases hx : cur.x = w.x
    · obtain ⟨m2, la, nx, r2, pre3, h1, h2, h3, h4, h5⟩ :=
        ih (max m w.y) w v rest (fun u hu => hall u (List.mem_cons_of_mem _ hu)) hw
      refine ⟨m2, la, nx, r2, pre3, ?_, h2, h3, by rw [h4, hx], by simp; omega⟩
      simp only [List.cons_append, runScan]
      rw [if_pos hx]
      exact h1
    · refine ⟨m, cur, w, pre2 ++ v :: rest, w :: pre2, ?_, by simp, ?_, rfl, by simp⟩
      · simp only [List.cons_append, runScan]
        rw [if_neg hx]
        rfl
      · intro u hu
        rcases List.mem_cons.mp hu with h | h
        · rw [h]; exact hw
        · exact hall u (List.mem_cons_of_mem _ h)

/-- The y of the last vertex of an equal-x block keeps that x. -/
theorem getLastD_x : ∀ (rs : List Vtx) (d : Vtx) (c : ℤ),
    (∀ v ∈ rs, v.x = c) → d.x = c → (rs.getLastD d).x = c := by
  intro rs
  induction rs with
  | nil => intro d c hall hd; simpa using hd
  | cons r rs ih =>
    intro d c hall hd
    simp only [List.getLastD_cons]
    exact ih r c (fun v hv => hall v (List.mem_cons_of_mem _ hv)) (hall r (by simp))

/-- A left fold of `max` never drops below its seed. -/
theorem foldl_max_ge : ∀ (rs : List Vtx) (m : ℤ),
    m ≤ rs.foldl (fun a v => max a v.y) m := by
  intro rs
  induction rs with
  | nil => intro m; simp
  | cons r rs ih =>
    intro m
    simp only [List.foldl_cons]
    exact le_trans (le_max_left m r.y) (ih (max m r.y))

/-- The slope pass writes no column strictly left of the first remaining
vertex's x (on an x-nondecreasing list). -/
theorem bsm_mono : ∀ (fuel : ℕ) (W : ℤ) (vs : List Vtx) (s f S F : ℤ → ℚ)
    (v0 : Vtx) (q : ℤ),
    List.Chain' (fun a b => a.x ≤ b.x) vs →
    bsmAux W fuel vs s f = some (S, F) →
    vs.head? = some v0 → q < v0.x →
    S q = s q ∧ F q = f q := by
  intro fuel
  induction fuel with
  | zero =>
    intro W vs s f S F v0 q hch hb hh hq
    cases vs with
    | nil => simp at hh
    | cons a tail =>
      cases tail with
      | nil =>
        simp only [bsmAux, Option.some.injEq, Prod.mk.injEq] at hb
        rw [← hb.1, ← hb.2]
        exact ⟨rfl, rfl⟩
      | cons b tail2 => simp [bsmAux] at hb
  | succ fuel ih =>
    intro W vs s f S F v0 q hch hb hh hq
    cases vs with
    | nil => simp at hh
    | cons a tail =>
      simp only [List.head?_cons, Option.some.injEq] at hh
      subst hh
      cases tail with
      | nil =>
        simp only [bsmAux, Option.some.injEq, Prod.mk.injEq] at hb
        rw [← hb.1, ← hb.2]
        exact ⟨rfl, rfl⟩
      | cons b tail2 =>
        have hab : a.x ≤ b.x := (List.chain'_cons.mp hch).1
        by_cases hx : a.x = b.x
        · cases hrs : runScan (max a.y b.y) b tail2 with
          | none =>
            rw [bsmAux_run_none W fuel a b tail2 s f hx hrs] at hb
            exact absurd hb (by simp)
          | some res =>
            obtain ⟨m, la, nx, r2⟩ := res
            rw [bsmAux_run W fuel a b tail2 s f m la nx r2 hx hrs] at hb
            obtain ⟨hlax, hble, hch3⟩ :=
              runScan_chain tail2 (max a.y b.y) b m la nx r2 hch.tail hrs
            have hq2 : q < nx.x := by omega
            obtain ⟨hS, hF⟩ := ih W (nx :: r2) _ _ S F nx q hch3 hb (by simp) hq2
            constructor
            · rw [hS, fillS_out _ _ _ _ _ (by omega), upd_ne _ _ _ _ (by omega)]
            · rw [hF]
              split_ifs with hW
              · rw [upd_ne _ _ _ _ (by omega), upd_ne _ _ _ _ (by omega)]
              · rw [upd_ne _ _ _ _ (by omega)]
        · rw [bsmAux_ne W fuel a b tail2 s f hx] at hb
          obtain ⟨hS, hF⟩ := ih W (b :: tail2) _ _ S F b q hch.tail hb (by simp)
            (by omega)
          exact ⟨by rw [hS, fillS_out _ _ _ _ _ (by omega)], hF⟩

/-- Processing a prefix whose x values are all strictly left of `v.x` reaches
`v :: rest` with the same maps at every column from `v.x` on (`s`) and
strictly after `v.x` (`f`), consuming at most one fuel per prefix vertex. -/
theorem bsm_append : ∀ (n : ℕ) (pre : List Vtx) (W : ℤ) (fuel : ℕ) (v : Vtx)
    (rest : List Vtx) (s f : ℤ → ℚ),
    pre.length ≤ n →
    List.Chain' (fun a b => a.x ≤ b.x) (pre ++ v :: rest) →
    (∀ w ∈ pre, w.x < v.x) →
    pre.length ≤ fuel →
    ∃ (fuel2 : ℕ) (s2 f2 : ℤ → ℚ),
      bsmAux W fuel (pre ++ v :: rest) s f = bsmAux W fuel2 (v :: rest) s2 f2 ∧
      fuel - pre.length ≤ fuel2 ∧
      (∀ q, v.x ≤ q → s2 q = s q) ∧ (∀ q, v.x < q → f2 q = f q) := by
  intro n
  induction n with
  | zero =>
    intro pre W fuel v rest s f hn hch hlt hfuel
    have hpre : pre = [] := List.length_eq_zero.mp (by omega)
    subst hpre
    exact ⟨fuel, s, f, rfl, by simp, fun q _ => rfl, fun q _ => rfl⟩
  | succ n ih =>
    intro pre W fuel v rest s f hn hch hlt hfuel
    cases pre with
    | nil => exact ⟨fuel, s, f, rfl, by simp, fun q _ => rfl, fun q _ => rfl⟩
    | cons p1 pre1 =>
      have hfuel1 : 1 ≤ fuel := by
        simp only [List.length_cons] at hfuel
        omega
      obtain ⟨fuel1, rfl⟩ : ∃ fuel1, fuel = fuel1 + 1 := ⟨fuel - 1, by omega⟩
      have hp1 : p1.x < v.x := hlt p1 (by simp)
      cases pre1 with
      | nil =>
        have hne : p1.x ≠ v.x := by omega
        refine ⟨fuel1,
          fillS s p1.x v.x (((v.y - p1.y : ℤ) : ℚ) / ((v.x - p1.x : ℤ) : ℚ)), f,
          ?_, ?_, ?_, fun q _ => rfl⟩
        · simp only [List.cons_append, List.nil_append]
          exact bsmAux_ne W fuel1 p1 v rest s f hne
        · simp only [List.length_cons, List.length_nil]
          omega
        · intro q hq
          exact fillS_out _ _ _ _ _ (by omega)
      | cons q1 pre2 =>
        have hq1 : q1.x < v.x := hlt q1 (by simp)
        have hchr : List.Chain' (fun a b : Vtx => a.x ≤ b.x)
            (q1 :: (pre2 ++ v :: rest)) := by
          have h2 := hch.tail
          simpa [List.cons_append] using h2
        by_cases hx : p1.x = q1.x
        · obtain ⟨m2, la, nx, r2, pre3, hrs, hdec, hpre3, hlax, hlen3⟩ :=
            runScan_pre pre2 (max p1.y q1.y) q1 v rest
              (fun u hu => hlt u (by simp [hu])) hq1
          obtain ⟨-, hnxge, hch3⟩ := runScan_chain _ _ _ _ _ _ _ hchr hrs
          have hnx : nx.x ≤ v.x := by
            cases pre3 with
            | nil =>
              simp only [List.nil_append, List.cons.injEq] at hdec
              rw [hdec.1]
            | cons p ps =>
              have hh : nx = p := by
                have := congrArg List.head? hdec
                simpa using this
              rw [hh]
              exact le_of_lt (hpre3 p (by simp))
          have hch4 : List.Chain' (fun a b : Vtx => a.x ≤ b.x) (pre3 ++ v :: rest) := by
            rw [← hdec]
            exact hch3
          obtain ⟨fuel2, s3, f3, heq, hfb, hs3, hf3⟩ :=
            ih pre3 W fuel1 v rest
              (fillS (upd s la.x 0) (la.x + 1) nx.x
                (((nx.y - la.y : ℤ) : ℚ) / ((nx.x - la.x : ℤ) : ℚ)))
              (if la.x < W - 1 then upd (upd f la.x (m2 : ℚ)) (la.x + 1) (-1)
                else upd f la.x (m2 : ℚ))
              (by
                simp only [List.length_cons] at hn
                omega)
              hch4 hpre3
              (by
                simp only [List.length_cons] at hfuel
                omega)
          refine ⟨fuel2, s3, f3, ?_, ?_, ?_, ?_⟩
          · have hstep := bsmAux_run W fuel1 p1 q1 (pre2 ++ v :: rest) s f m2 la nx r2 hx hrs
            calc bsmAux W (fuel1 + 1) ((p1 :: q1 :: pre2) ++ v :: rest) s f
                = bsmAux W (fuel1 + 1) (p1 :: q1 :: (pre2 ++ v :: rest)) s f := by
                  simp [List.cons_append]
              _ = bsmAux W fuel1 (nx :: r2) _ _ := hstep
              _ = bsmAux W fuel1 (pre3 ++ v :: rest) _ _ := by rw [hdec]
              _ = bsmAux W fuel2 (v :: rest) s3 f3 := heq
          · simp only [List.length_cons] at hfuel hfb ⊢
            omega
          · intro q hq
            rw [hs3 q hq, fillS_out _ _ _ _ _ (by omega), upd_ne _ _ _ _ (by omega)]
          · intro q hq
            rw [hf3 q hq]
            split_ifs with hW
            · rw [upd_ne _ _ _ _ (by omega), upd_ne _ _ _ _ (by omega)]
            · rw [upd_ne _ _ _ _ (by omega)]
        · obtain ⟨fuel2, s3, f3, heq, hfb, hs3, hf3⟩ :=
            ih (q1 :: pre2) W fuel1 v rest
              (fillS s p1.x q1.x (((q1.y - p1.y : ℤ) : ℚ) / ((q1.x - p1.x : ℤ) : ℚ))) f
              (by
                simp only [List.length_cons] at hn ⊢
                omega)
              (by simpa [List.cons_append] using hch.tail)
              (fun u hu => hlt u (List.mem_cons_of_mem _ hu))
              (by
                simp only [List.length_cons] at hfuel ⊢
                omega)
          refine ⟨fuel2, s3, f3, ?_, ?_, ?_, hf3⟩
          · calc bsmAux W (fuel1 + 1) ((p1 :: q1 :: pre2) ++ v :: rest) s f
                = bsmAux W (fuel1 + 1) (p1 :: q1 :: (pre2 ++ v :: rest)) s f := by
                  simp [List.cons_append]
              _ = bsmAux W fuel1 (q1 :: (pre2 ++ v :: rest)) _ f :=
                  bsmAux_ne W fuel1 p1 q1 (pre2 ++ v :: rest) s f hx
              _ = bsmAux W fuel1 ((q1 :: pre2) ++ v :: rest) _ f := by
                  simp [List.cons_append]
              _ = bsmAux W fuel2 (v :: rest) s3 f3 := heq
          · simp only [List.length_cons] at hfuel hfb ⊢
            omega
          · intro q hq
            rw [hs3 q hq, fillS_out _ _ _ _ _ (by omega)]

/-- On a strictly-increasing vertex list the slope pass succeeds without
touching the height array, writes nothing outside `[head.x, last.x)`, and
the slopes over that interval telescope: they sum to `last.y - head.y`
exactly (the ℚ model of the C float arithmetic). -/
theorem bsm_sum : ∀ (vs : List Vtx) (v0 : Vtx) (W : ℤ) (fuel : ℕ) (s f : ℤ → ℚ)
    (vl : Vtx),
    List.Chain' (fun a b => a.x < b.x) (v0 :: vs) →
    (v0 :: vs).getLast? = some vl →
    vs.length ≤ fuel →
    ∃ S, bsmAux W fuel (v0 :: vs) s f = some (S, f) ∧
      (∀ q, q < v0.x → S q = s q) ∧ (∀ q, vl.x ≤ q → S q = s q) ∧
      v0.x ≤ vl.x ∧
      (∑ t in Finset.Ico v0.x vl.x, S t) = ((vl.y - v0.y : ℤ) : ℚ) := by
  intro vs
  induction vs with
  | nil =>
    intro v0 W fuel s f vl hch hl hfuel
    simp only [List.getLast?_singleton, Option.some.injEq] at hl
    subst hl
    refine ⟨s, bsmAux_single W fuel v0 s f, fun q _ => rfl, fun q _ => rfl, le_refl _, ?_⟩
    simp [Finset.Ico_self]
  | cons v1 vs ih =>
    intro v0 W fuel s f vl hch hl hfuel
    have h01 : v0.x < v1.x := (List.chain'_cons.mp hch).1
    have hfuel1 : 1 ≤ fuel := by
      simp only [List.length_cons] at hfuel
      omega
    obtain ⟨fuel1, rfl⟩ : ∃ fuel1, fuel = fuel1 + 1 := ⟨fuel - 1, by omega⟩
    have hl2 : (v1 :: vs).getLast? = some vl := by
      rw [← hl]
      rfl
    obtain ⟨S, hS, hlow, hhigh, hle, hsum⟩ :=
      ih v1 W fuel1
        (fillS s v0.x v1.x (((v1.y - v0.y : ℤ) : ℚ) / ((v1.x - v0.x : ℤ) : ℚ))) f vl
        hch.tail hl2
        (by
          simp only [List.length_cons] at hfuel
          omega)
    refine ⟨S, ?_, ?_, ?_, by omega, ?_⟩
    · rw [bsmAux_ne W fuel1 v0 v1 vs s f (by omega)]
      exact hS
    · intro q hq
      rw [hlow q (by omega), fillS_out _ _ _ _ _ (by omega)]
    · intro q hq
      rw [hhigh q hq, fillS_out _ _ _ _ _ (by omega)]
    · have hsplit : ∑ t in Finset.Ico v0.x vl.x, S t =
          (∑ t in Finset.Ico v0.x v1.x, S t) + ∑ t in Finset.Ico v1.x vl.x, S t :=
        sumIco_split S v0.x v1.x vl.x (by omega) hle
      have hconst : ∑ t in Finset.Ico v0.x v1.x, S t =
          (∑ _t in Finset.Ico v0.x v1.x,
            (((v1.y - v0.y : ℤ) : ℚ) / ((v1.x - v0.x : ℤ) : ℚ))) := by
        refine Finset.sum_congr rfl ?_
        intro t ht
        simp only [Finset.mem_Ico] at ht
        rw [hlow t ht.2, fillS_in _ _ _ _ _ ht.1 ht.2]
      have hcard : ∑ _t in Finset.Ico v0.x v1.x,
          (((v1.y - v0.y : ℤ) : ℚ) / ((v1.x - v0.x : ℤ) : ℚ)) =
          (((v1.x - v0.x : ℤ) : ℚ)) * (((v1.y - v0.y : ℤ) : ℚ) / ((v1.x - v0.x : ℤ) : ℚ)) := by
        rw [Finset.sum_const, Int.card_Ico, nsmul_eq_mul]
        congr 1
        have h0 : (0 : ℤ) ≤ v1.x - v0.x := by omega
        exact_mod_cast congrArg (fun z : ℤ => (z : ℚ)) (Int.toNat_of_nonneg h0)
      have hdx : (((v1.x - v0.x : ℤ) : ℚ)) ≠ 0 := by
        have : (0 : ℤ) < v1.x - v0.x := by omega
        positivity
      have hseg : (((v1.x - v0.x : ℤ) : ℚ)) *
          (((v1.y - v0.y : ℤ) : ℚ) / ((v1.x - v0.x : ℤ) : ℚ)) = ((v1.y - v0.y : ℤ) : ℚ) := by
        rw [mul_comm, div_mul_cancel₀ _ hdx]
      rw [hsplit, hconst, hcard, hseg, hsum]
      push_cast
      ring

/-- Every accepted vertex list is nonempty and — thanks to the trailing
normalization — ends in the vertex `(W - 1, firstY)`. -/
theorem readVertexList_last (W : ℤ) (input : List (ℤ × ℤ)) (vs : List Vtx)
    (h : readVertexList W input = Except.ok vs) :
    ∃ v0 tail, vs = v0 :: tail ∧ vs.getLast? = some ⟨W - 1, v0.y⟩ := by
  unfold readVertexList at h
  cases hr : rvlStep W (-1) [] input with
  | error e =>
    rw [hr] at h
    exact absurd h (by simp)
  | ok l =>
    rw [hr] at h
    cases l with
    | nil => simp at h
    | cons first rest =>
      simp only [Except.ok.injEq] at h
      subst h
      unfold normalizeEnd
      cases hl : (first :: rest).getLast? with
      | none => simp at hl
      | some last =>
        dsimp only
        by_cases hcond : last.x ≠ W - 1 ∨ last.y ≠ first.y
        · rw [if_pos hcond]
          refine ⟨first, rest ++ [⟨W - 1, first.y⟩], by simp, ?_⟩
          rw [show (first :: rest) ++ [(⟨W - 1, first.y⟩ : Vtx)] =
            first :: (rest ++ [⟨W - 1, first.y⟩]) from by simp]
          rw [show first :: (rest ++ [(⟨W - 1, first.y⟩ : Vtx)]) =
            (first :: rest) ++ [⟨W - 1, first.y⟩] from by simp]
          exact List.getLast?_concat _
        · rw [if_neg hcond]
          push_neg at hcond
          refine ⟨first, rest, rfl, ?_⟩
          rw [hl]
          congr 1
          cases last with
          | mk lx ly =>
            simp only at hcond
            rw [hcond.1, hcond.2]

/-- Claim C6 (amended): for every accepted vertex file whose normalized vertex
list has strictly increasing x — i.e. contains no vertical run — the built
height map satisfies `heightMap[0] = heightMap[W-1]` (wrap continuity).  The
counterexample C6_counterexample shows the restriction is needed: a vertical
run whose maximum exceeds its last y shifts every later column, breaking the
continuity the normalization is meant to guarantee. -/
theorem C6_wrap (W : ℤ) (input : List (ℤ × ℤ)) (vs : List Vtx) (hmf : ℤ → ℤ) :
    2 ≤ W →
    readVertexList W input = Except.ok vs →
    List.Chain' (fun a b => a.x < b.x) vs →
    buildHeightMap W vs = some hmf →
    hmf 0 = hmf (W - 1) := by
  intro hW hread hch hbuild
  obtain ⟨v0, tail, rfl, hlast⟩ := readVertexList_last W input vs hread
  obtain ⟨S, hbsm, hlow, hhigh, hle, hsum⟩ :=
    bsm_sum tail v0 W (v0 :: tail).length zrQ zrQ ⟨W - 1, v0.y⟩ hch hlast (by simp)
  unfold buildHeightMap at hbuild
  rw [hbsm] at hbuild
  dsimp only at hbuild
  by_cases hx0 : v0.x = 0
  · rw [if_pos hx0] at hbuild
    simp only [Option.some.injEq] at hbuild
    subst hbuild
    dsimp only at hhigh hle hsum
    have hframe : fhLoop S W W.toNat 1 (upd zrQ 0 (v0.y : ℚ)) 0 = (v0.y : ℚ) := by
      rw [fhLoop_frame S W W.toNat 1 _ 0 (by omega), upd_self]
    have haccum : fhLoop S W W.toNat 1 (upd zrQ 0 (v0.y : ℚ)) (W - 1) = (v0.y : ℚ) := by
      have hacc := fhLoop_accum S W W.toNat 1 (upd zrQ 0 (v0.y : ℚ)) (W - 1)
        (by omega) (by omega) (by omega) (by omega)
        (fun p hp1 hp2 hcon => by
          have h2 : upd zrQ 0 (v0.y : ℚ) (p + 1) = -1 := hcon.2.2
          rw [upd_ne _ _ _ _ (by omega)] at h2
          exact absurd h2 (by norm_num [zrQ]))
      rw [hacc]
      have h11 : (1 : ℤ) - 1 = 0 := by norm_num
      rw [h11, upd_self]
      have hsum2 : ∑ t in Finset.Ico (0 : ℤ) (W - 1), S t = 0 := by
        rw [← hx0, hsum]
        simp
      rw [hsum2, add_zero]
    show Int.ceil (fhLoop S W W.toNat 1 (upd zrQ 0 (v0.y : ℚ)) 0) =
      Int.ceil (fhLoop S W W.toNat 1 (upd zrQ 0 (v0.y : ℚ)) (W - 1))
    rw [hframe, haccum]
  · rw [if_neg hx0] at hbuild
    exact absurd hbuild (by simp)

/-- Witness for C6_wrap: the file [(0,0),(11,0)] at level width 12 is
accepted, its vertex list is strictly increasing in x, and the resulting
height map wraps: column 0 equals column 11. -/
theorem C6_wrap_witness :
    ∃ hmf, buildHeightMap 12 [⟨0, 0⟩, ⟨11, 0⟩] = some hmf ∧ hmf 0 = hmf (12 - 1) := by
  refine ⟨_, rfl, ?_⟩
  exact C6_wrap 12 [(0, 0), (11, 0)] [⟨0, 0⟩, ⟨11, 0⟩] _ (by norm_num) rfl
    (by simp [List.chain'_cons]) rfl

/-- Counterexample to claim C6 as stated: the file
[(0,0),(10,5),(10,0),(11,0)] at level width 12 is accepted by the parser
(its last x is already 11 = levelWidth - 1, so normalization changes
nothing), yet the built height map has heightMap[0] = 0 and
heightMap[11] = 5.  The vertical run at x = 10 has maximum y = 5 but last
y = 0; buildSlopeMap records the maximum at the run column and a `-1`
sentinel after it, and buildFHeightMap then seeds column 11 from that
maximum instead of from the run's outgoing endpoint, so wrap continuity
with column 0 is lost. -/
theorem C6_counterexample :
    ∃ vs hmf,
      readVertexList 12 [(0, 0), (10, 5), (10, 0), (11, 0)] = Except.ok vs ∧
      buildHeightMap 12 vs = some hmf ∧ hmf 0 ≠ hmf (12 - 1) := by
  refine ⟨[⟨0, 0⟩, ⟨10, 5⟩, ⟨10, 0⟩, ⟨11, 0⟩],
    fun t => Int.ceil (fhLoop c6S 12 12 1 c6F t), rfl, rfl, ?_⟩
  have h0 : fhLoop c6S 12 12 1 c6F 0 = ((0 : ℤ) : ℚ) := by
    rw [fhLoop_frame c6S 12 12 1 c6F 0 (by norm_num)]
    unfold c6F
    rw [upd_self]
  have hs : fhLoop c6S 12 12 1 c6F (10 + 1) = ((5 : ℤ) : ℚ) + c6S (10 + 1) := by
    refine (fhLoop_sentinel c6S 12 10 5 12 1 c6F (by norm_num) (by norm_num) (by decide)
      ?_ ?_ (by norm_num) ?_ (by norm_num)).2
    · unfold c6F
      rw [upd_ne _ _ _ _ (by norm_num), upd_ne _ _ _ _ (by norm_num), upd_self]
    · unfold c6F
      rw [upd_ne _ _ _ _ (by norm_num), show (10 : ℤ) + 1 = 11 from by norm_num, upd_self]
    · unfold c6S
      rw [fillS_out _ _ _ _ _ (by norm_num), upd_self]
  have hs11 : c6S (10 + 1) = 0 := by
    unfold c6S
    rw [fillS_out _ _ _ _ _ (by norm_num), upd_ne _ _ _ _ (by norm_num),
      fillS_out _ _ _ _ _ (by norm_num)]
    rfl
  show Int.ceil (fhLoop c6S 12 12 1 c6F 0) ≠ Int.ceil (fhLoop c6S 12 12 1 c6F (12 - 1))
  rw [show (12 : ℤ) - 1 = 10 + 1 from by norm_num, h0, hs, hs11, add_zero,
    Int.ceil_intCast, Int.ceil_intCast]
  norm_num

/-- Claim C5 (amended): on an x-nondecreasing vertex list starting at x = 0,
an isolated vertical run `r1 :: r2 :: rs` — preceded only by strictly-left
vertices and followed by a next distinct-x vertex `nxt` at least two columns
to the right — yields at the run's column exactly the run's maximum y, and
at the following column the ceiling of that maximum plus the outgoing slope.
The outgoing slope, however, is `(nxt.y - (rs.getLastD r2).y) / (nxt.x -
r1.x)`: it is computed from the run's LAST vertex's y, not from the maximum,
so a non-maximal final run value does influence the following columns,
refuting the claim's last clause; and C5_counterexample shows that without
the isolation hypothesis even the run-column clause fails. -/
theorem C5_run_columns (W : ℤ) (pre : List Vtx) (r1 r2 : Vtx) (rs : List Vtx)
    (nxt : Vtx) (post : List Vtx) (hmf : ℤ → ℤ) :
    List.Chain' (fun a b => a.x ≤ b.x) (pre ++ r1 :: r2 :: (rs ++ nxt :: post)) →
    (∀ w ∈ pre, w.x < r1.x) →
    r1.x = r2.x →
    (∀ v ∈ rs, v.x = r2.x) →
    r1.x + 1 < nxt.x →
    nxt.x ≤ W - 1 →
    1 ≤ r1.x →
    0 ≤ r1.y →
    buildHeightMap W (pre ++ r1 :: r2 :: (rs ++ nxt :: post)) = some hmf →
    hmf r1.x = rs.foldl (fun a v => max a v.y) (max r1.y r2.y) ∧
    hmf (r1.x + 1) =
      Int.ceil (((rs.foldl (fun a v => max a v.y) (max r1.y r2.y) : ℤ) : ℚ) +
        ((nxt.y - (rs.getLastD r2).y : ℤ) : ℚ) / ((nxt.x - r1.x : ℤ) : ℚ)) := by
  intro hch hpre hx12 hrs hnxt hnW h1 hy hbuild
  set mY := rs.foldl (fun a v => max a v.y) (max r1.y r2.y) with hmYdef
  obtain ⟨v0, tl, hvs⟩ :
      ∃ v0 tl, pre ++ r1 :: r2 :: (rs ++ nxt :: post) = v0 :: tl := by
    cases pre with
    | nil => exact ⟨r1, _, rfl⟩
    | cons a b => exact ⟨a, _, rfl⟩
  rw [hvs] at hbuild
  unfold buildHeightMap at hbuild
  cases hb : bsmAux W (v0 :: tl).length (v0 :: tl) zrQ zrQ with
  | none =>
    rw [hb] at hbuild
    dsimp only at hbuild
    exact absurd hbuild (by simp)
  | some SF =>
    obtain ⟨S, F⟩ := SF
    rw [hb] at hbuild
    dsimp only at hbuild
    by_cases hv0 : v0.x = 0
    case neg =>
      rw [if_neg hv0] at hbuild
      exact absurd hbuild (by simp)
    case pos =>
    rw [if_pos hv0] at hbuild
    simp only [Option.some.injEq] at hbuild
    subst hbuild
    have hlen : (v0 :: tl).length = pre.length + (rs.length + post.length + 3) := by
      rw [← hvs]
      simp only [List.length_append, List.length_cons]
      omega
    obtain ⟨fuel2, s2, f2, heq, hfge, -, -⟩ :=
      bsm_append pre.length pre W (v0 :: tl).length r1 (r2 :: (rs ++ nxt :: post))
        zrQ zrQ (le_refl _) hch hpre (by omega)
    rw [hvs] at heq
    rw [heq] at hb
    obtain ⟨k, rfl⟩ : ∃ k, fuel2 = k + 1 := ⟨fuel2 - 1, by omega⟩
    have hrseq : runScan (max r1.y r2.y) r2 (rs ++ nxt :: post) =
        some (mY, rs.getLastD r2, nxt, post) := by
      rw [hmYdef]
      exact runScan_eq rs (max r1.y r2.y) r2 nxt post hrs (by omega)
    rw [bsmAux_run W k r1 r2 (rs ++ nxt :: post) s2 f2 mY (rs.getLastD r2) nxt post
      hx12 hrseq] at hb
    have hla2 : (rs.getLastD r2).x = r1.x := by
      rw [getLastD_x rs r2 r2.x hrs rfl]
      exact hx12.symm
    rw [hla2] at hb
    rw [if_pos (show r1.x < W - 1 by omega)] at hb
    have hch2 : List.Chain' (fun a b : Vtx => a.x ≤ b.x)
        (r2 :: (rs ++ nxt :: post)) := by
      refine hch.suffix ⟨pre ++ [r1], ?_⟩
      simp
    obtain ⟨-, -, hch3⟩ :=
      runScan_chain (rs ++ nxt :: post) (max r1.y r2.y) r2 mY (rs.getLastD r2) nxt
        post hch2 hrseq
    obtain ⟨hS5, hF5⟩ := bsm_mono k W (nxt :: post) _ _ S F nxt r1.x hch3 hb
      (by simp) (by omega)
    obtain ⟨hS6, hF6⟩ := bsm_mono k W (nxt :: post) _ _ S F nxt (r1.x + 1) hch3 hb
      (by simp) (by omega)
    have hS5v : S r1.x = 0 := by
      rw [hS5, fillS_out _ _ _ _ _ (by omega), upd_self]
    have hF5v : F r1.x = (mY : ℚ) := by
      rw [hF5, upd_ne _ _ _ _ (by omega), upd_self]
    have hS6v : S (r1.x + 1) =
        ((nxt.y - (rs.getLastD r2).y : ℤ) : ℚ) / ((nxt.x - r1.x : ℤ) : ℚ) := by
      rw [hS6, fillS_in _ _ _ _ _ (by omega) (by omega)]
    have hF6v : F (r1.x + 1) = -1 := by
      rw [hF6, upd_self]
    have hmge : max r1.y r2.y ≤ mY := by
      rw [hmYdef]
      exact foldl_max_ge rs (max r1.y r2.y)
    have hmne : mY ≠ -1 := by
      have h2 := le_max_left r1.y r2.y
      omega
    have hsent := fhLoop_sentinel S W r1.x mY W.toNat 1 (upd F 0 (v0.y : ℚ))
      (by norm_num) h1 (by omega)
      (by rw [upd_ne _ _ _ _ (by omega)]; exact hF5v)
      (by rw [upd_ne _ _ _ _ (by omega)]; exact hF6v)
      hmne hS5v (by omega)
    constructor
    · show Int.ceil (fhLoop S W W.toNat 1 (upd F 0 (v0.y : ℚ)) r1.x) = mY
      rw [hsent.1, Int.ceil_intCast]
    · show Int.ceil (fhLoop S W W.toNat 1 (upd F 0 (v0.y : ℚ)) (r1.x + 1)) =
        Int.ceil ((mY : ℚ) +
          ((nxt.y - (rs.getLastD r2).y : ℤ) : ℚ) / ((nxt.x - r1.x : ℤ) : ℚ))
      rw [hsent.2, hS6v]

/-- Witness for C5_run_columns: the list [(0,0),(5,1),(5,2),(9,4),(11,0)] at
level width 12 has an isolated vertical run at x = 5 with maximum 2; the
height map gets 2 at column 5 and ceil(2 + (4-2)/(9-5)) = 3 at column 6. -/
theorem C5_run_columns_witness :
    ∃ hmf,
      buildHeightMap 12 ([⟨0, 0⟩] ++ ⟨5, 1⟩ :: ⟨5, 2⟩ :: ([] ++ ⟨9, 4⟩ :: [⟨11, 0⟩])) =
        some hmf ∧ hmf 5 = 2 ∧ hmf 6 = 3 := by
  refine ⟨_, rfl, ?_⟩
  obtain ⟨ha, hb⟩ := C5_run_columns 12 [⟨0, 0⟩] ⟨5, 1⟩ ⟨5, 2⟩ [] ⟨9, 4⟩ [⟨11, 0⟩] _
    (by simp [List.chain'_cons]) (by simp) rfl (by simp) (by decide) (by decide)
    (by decide) (by decide) rfl
  constructor
  · exact ha.trans (by decide)
  · refine hb.trans ?_
    show Int.ceil (((max 1 2 : ℤ) : ℚ) + ((4 - 2 : ℤ) : ℚ) / ((9 - 5 : ℤ) : ℚ)) = 3
    rw [max_eq_right (by norm_num : (1 : ℤ) ≤ 2)]
    norm_num [Int.ceil_eq_iff]

/-- Counterexample to claim C5 as stated: in the accepted list
[(0,0),(5,1),(5,2),(6,1),(6,3),(10,0),(11,0)] at level width 12 the vertical
run at x = 5 has maximum y = 2, but the run at x = 6 clobbers the first
run's `-1` sentinel at column 6, so the height pass never sees the recorded
maximum and instead accumulates 5 × 1/5 = 1 into column 5: the height at the
run's column is 1, not the run maximum 2. -/
theorem C5_counterexample :
    ∃ vs hmf,
      readVertexList 12 [(0, 0), (5, 1), (5, 2), (6, 1), (6, 3), (10, 0), (11, 0)] =
        Except.ok vs ∧
      buildHeightMap 12 vs = some hmf ∧ hmf 5 = 1 ∧ hmf 5 ≠ max 1 2 := by
  have hm5 : Int.ceil (fhLoop c5S 12 12 1 c5F 5) = 1 := by
    have hnever : ∀ p, 1 ≤ p → p ≤ 5 →
        ¬(c5S p = 0 ∧ p < 12 - 1 ∧ c5F (p + 1) = -1) := by
      intro p hp1 hp2
      interval_cases p <;> norm_num [c5S, c5F, fillS, upd, zrQ]
    have hacc := fhLoop_accum c5S 12 12 1 c5F 5 (by norm_num) (by norm_num)
      (by norm_num) (by decide) hnever
    have hsum : ∑ t in Finset.Ico ((1 : ℤ) - 1) 5, c5S t = 1 := by
      have hconst : ∀ t ∈ Finset.Ico ((1 : ℤ) - 1) 5,
          c5S t = ((1 - 0 : ℤ) : ℚ) / ((5 - 0 : ℤ) : ℚ) := by
        intro t ht
        simp only [Finset.mem_Ico] at ht
        unfold c5S
        rw [fillS_out _ _ _ _ _ (by omega), fillS_out _ _ _ _ _ (by omega),
          upd_ne _ _ _ _ (by omega), fillS_out _ _ _ _ _ (by omega),
          upd_ne _ _ _ _ (by omega), fillS_in _ _ _ _ _ (by omega) (by omega)]
      rw [Finset.sum_congr rfl hconst, Finset.sum_const, Int.card_Ico,
        nsmul_eq_mul]
      norm_num
      show ((5 : ℕ) : ℚ) * (1 / 5) = 1
      norm_num
    have hc0 : c5F (1 - 1) = ((0 : ℤ) : ℚ) := by
      rw [show (1 : ℤ) - 1 = 0 from by norm_num]
      unfold c5F
      rw [upd_self]
    rw [hacc, hc0, hsum]
    norm_num
  refine ⟨[⟨0, 0⟩, ⟨5, 1⟩, ⟨5, 2⟩, ⟨6, 1⟩, ⟨6, 3⟩, ⟨10, 0⟩, ⟨11, 0⟩],
    fun t => Int.ceil (fhLoop c5S 12 12 1 c5F t), rfl, rfl, hm5, ?_⟩
  show Int.ceil (fhLoop c5S 12 12 1 c5F 5) ≠ max 1 2
  rw [hm5]
  decide

end LunarLander
